import Mathlib

/-!
Verification of the tree synthesis / bytecode compilation core of the
stampede repository (src/tree.rs), as a shallow embedding in Lean.

Modelling conventions:
- `f32` values are modelled as exact rationals (`ℚ`); `usize`/`u32` as `ℕ`
  with explicit truncation (`% 2 ^ 32`) where the source casts.
- Rust panics (array index out of bounds, `usize` underflow, unknown wrap
  mode names) are modelled as `Option.none`.
- The fixed-size arrays `[u32; INSTRUCTION_COUNT]` and
  `[f32; CONSTANT_POOL_SIZE]` are modelled as total functions from `ℕ`
  together with the capacity constants; every write first checks the
  index against the capacity, exactly where the Rust indexing would panic.
- The random number generator is not modelled: every `rng.gen_range` draw
  becomes an explicit parameter, constrained by hypotheses to the range
  the source requests.
-/

namespace Stampede

def INSTRUCTION_COUNT : Nat := 128

def CONSTANT_POOL_SIZE : Nat := 1024

def RATE_SCALE : ℚ := 500

/-- `WrapMode` from tree.rs. The source enum has only `Repeat` and `Mirror`;
a "fixed" constant is given mode `Repeat` by `WrapMode::from_name` (with
`rate = 0`, so it never moves). -/
inductive WrapMode where
  | Repeat
  | Mirror
deriving DecidableEq

/-- `WrapMode::from_name`. The `panic!` arm for an unknown name is modelled
as `none`. -/
def WrapMode.from_name : String → Option WrapMode
  | "m" => some WrapMode.Mirror
  | "r" => some WrapMode.Repeat
  | "f" => some WrapMode.Repeat
  | _ => none

/-- `Constant` from tree.rs: `limits: [f32; 2]`, `value`, `rate`,
`wrap_mode`. The two-element limits array is modelled as a pair,
`limits.1` being `limits[0]` (the minimum) and `limits.2` being
`limits[1]` (the maximum). -/
structure Constant where
  limits : ℚ × ℚ
  value : ℚ
  rate : ℚ
  wrap_mode : WrapMode
deriving DecidableEq

/-- `Constant::new`. The two `rng.gen_range` draws are explicit parameters:
`rateDraw` stands for `rng.gen_range(min_bound / RATE_SCALE, max_bound / RATE_SCALE)`
(evaluated only when `mode_name != "f"`) and `valueDraw` for
`rng.gen_range(min_bound, max_bound)`. `WrapMode::from_name` panics on an
unknown name, hence the `Option`. -/
def Constant.new (min_bound max_bound : ℚ) (mode_name : String)
    (rateDraw valueDraw : ℚ) : Option Constant :=
  (WrapMode.from_name mode_name).map fun w =>
    { limits := (min_bound, max_bound)
      value := valueDraw
      rate := if mode_name ≠ "f" then rateDraw else 0
      wrap_mode := w }

/-- `Constant::animate`: add the rate to the value, then run the two wrap
corrections in sequence (first the under-run check against `limits[0]`,
then the over-run check against `limits[1]`), exactly as the two `if`
statements in the source mutate `self`. -/
def Constant.animate (c : Constant) : Constant :=
  let c1 : Constant := { c with value := c.value + c.rate }
  let c2 : Constant :=
    if c1.value < c1.limits.1 then
      match c1.wrap_mode with
      | WrapMode.Repeat => { c1 with value := c1.value + (c1.limits.2 - c1.limits.1) }
      | WrapMode.Mirror =>
          { c1 with value := c1.limits.1 + (c1.limits.1 - c1.value)
                    rate := c1.rate * (-1) }
    else c1
  if c2.value > c2.limits.2 then
    match c2.wrap_mode with
    | WrapMode.Repeat => { c2 with value := c2.value - (c2.limits.2 - c2.limits.1) }
    | WrapMode.Mirror =>
        { c2 with value := c2.limits.2 - (c2.value - c2.limits.2)
                  rate := c2.rate * (-1) }
  else c2

/-- `n` successive `animate` calls. -/
def Constant.animateN (c : Constant) : Nat → Constant
  | 0 => c
  | n + 1 => (c.animate).animateN n

/-- `InstructionEncoder` from tree.rs: a fixed-capacity `u32` instruction
array with a write cursor, and a fixed-capacity `f32` constant pool with a
write cursor. The arrays are modelled as total functions, with the
capacities enforced at each write. -/
structure InstructionEncoder where
  instrs : Nat → Nat
  instr_offset : Nat
  constant_pool : Nat → ℚ
  pool_offset : Nat

/-- `InstructionEncoder::new`: both arrays zero-initialized, cursors at 0. -/
def InstructionEncoder.new : InstructionEncoder :=
  { instrs := fun _ => 0
    instr_offset := 0
    constant_pool := fun _ => 0
    pool_offset := 0 }

/-- `InstructionEncoder::push_constant`: `self.constant_pool[self.pool_offset] = value;
self.pool_offset += 1;`. Indexing past `CONSTANT_POOL_SIZE` panics, hence `none`. -/
def InstructionEncoder.push_constant (e : InstructionEncoder) (value : ℚ) :
    Option InstructionEncoder :=
  if e.pool_offset < CONSTANT_POOL_SIZE then
    some { e with
      constant_pool := fun i => if i = e.pool_offset then value else e.constant_pool i
      pool_offset := e.pool_offset + 1 }
  else none

/-- The instruction word computed in `InstructionEncoder::push`:
`((consts.len() & 0xFF) as u32) << 16 | ((children.len() & 0xFF) as u32) << 8
| (Op::opcode() as u32)`. The `as u32` cast of the `usize` opcode is the
`% 2 ^ 32`; both shifted fields already fit in 24 bits. -/
def op_bits (opcode childCount constCount : Nat) : Nat :=
  ((constCount &&& 0xFF) <<< 16) ||| ((childCount &&& 0xFF) <<< 8) ||| (opcode % 2 ^ 32)

/-- The final two lines of `InstructionEncoder::push`:
`self.instrs[self.instr_offset] = op_bits; self.instr_offset += 1;`.
Indexing past `INSTRUCTION_COUNT` panics, hence `none`. -/
def InstructionEncoder.push_word (e : InstructionEncoder) (w : Nat) :
    Option InstructionEncoder :=
  if e.instr_offset < INSTRUCTION_COUNT then
    some { e with
      instrs := fun i => if i = e.instr_offset then w else e.instrs i
      instr_offset := e.instr_offset + 1 }
  else none

/-- The instruction words emitted so far, in order: the array contents below
the write cursor. -/
def InstructionEncoder.writtenWords (e : InstructionEncoder) : List Nat :=
  (List.range e.instr_offset).map e.instrs

/-- The constant-pool entries emitted so far, in order. -/
def InstructionEncoder.writtenConsts (e : InstructionEncoder) : List ℚ :=
  (List.range e.pool_offset).map e.constant_pool

/-- `Node` from tree.rs. The Rust enum has eighteen variants, one per
operator struct generated by `make_op!`; every such struct is an opcode id
together with a fixed-size array of `Constant`s and a fixed-size array of
boxed child `Node`s, and the `Opcode` trait exposes exactly these three
pieces (`opcode()`, `get_constants()`, `get_children()`). The embedding
therefore represents a node as that triple; the catalog
(`opcodeCatalog` below) records which id carries which arity and constant
count. -/
inductive Node where
  | mk (opcode : Nat) (consts : List Constant) (children : List Node) : Node

/-- `Opcode::opcode` for the node's variant. -/
def Node.opcode : Node → Nat
  | Node.mk op _ _ => op

/-- `Opcode::get_constants` for the node's variant. -/
def Node.get_constants : Node → List Constant
  | Node.mk _ cs _ => cs

/-- `Opcode::get_children` for the node's variant. -/
def Node.get_children : Node → List Node
  | Node.mk _ _ children => children

/-- The catalog instantiated by the `make_op!` invocations in tree.rs:
(opcode id, child count, constant count) for each of the eighteen
operators, in source order: ConstOp, EllipseOp, FlowerOp,
LinearGradientOp, RadialGradientOp, PolarThetaOp, AbsoluteOp, InvertOp,
AddOp, SubtractOp, MultiplyOp, DivideOp, ModulusOp, ExponentOp, SincOp,
SineOp, SpiralOp, SquircleOp. -/
def opcodeCatalog : List (Nat × Nat × Nat) :=
  [(1, 0, 1), (2, 0, 6), (3, 0, 7), (4, 0, 5), (5, 0, 5), (6, 0, 3),
   (8, 1, 0), (9, 1, 0), (10, 2, 0), (11, 2, 0), (12, 2, 0), (13, 2, 0),
   (14, 2, 0), (15, 2, 0), (16, 1, 2), (17, 1, 2), (18, 1, 4), (19, 2, 4)]

/-- The `for v in consts` loop of `InstructionEncoder::push`: pushes the
values of the constants, left to right. -/
def pushConstants : List ℚ → InstructionEncoder → Option InstructionEncoder
  | [], e => some e
  | v :: vs, e => (e.push_constant v).bind fun e1 => pushConstants vs e1

mutual

/-- `Node::encode` composed with `InstructionEncoder::push`: `Node::encode`
dispatches on the variant and calls `encoder.push(op)`, and `push` first
encodes all children left to right, then pushes the node's constant
values, then writes the node's own instruction word. -/
def Node.encode : Node → InstructionEncoder → Option InstructionEncoder
  | Node.mk op cs children, e =>
      (Node.encodeChildren children e).bind fun e1 =>
      (pushConstants (cs.map Constant.value) e1).bind fun e2 =>
      e2.push_word (op_bits op children.length cs.length)

/-- The `for child in children` loop of `InstructionEncoder::push`. -/
def Node.encodeChildren : List Node → InstructionEncoder → Option InstructionEncoder
  | [], e => some e
  | n :: ns, e => (Node.encode n e).bind fun e1 => Node.encodeChildren ns e1

end

mutual

/-- Total number of nodes in a tree. -/
def Node.count : Node → Nat
  | Node.mk _ _ children => Node.countList children + 1

/-- Total number of nodes in a forest. -/
def Node.countList : List Node → Nat
  | [] => 0
  | n :: ns => Node.count n + Node.countList ns

end

mutual

/-- Total number of constants in a tree. -/
def Node.constCount : Node → Nat
  | Node.mk _ cs children => Node.constCountList children + cs.length

/-- Total number of constants in a forest. -/
def Node.constCountList : List Node → Nat
  | [] => 0
  | n :: ns => Node.constCount n + Node.constCountList ns

end

mutual

/-- The postorder instruction stream of a tree: the streams of the
children, left to right, followed by the node's own instruction word. -/
def Node.postorderWords : Node → List Nat
  | Node.mk op cs children =>
      Node.postorderWordsList children ++ [op_bits op children.length cs.length]

/-- The postorder instruction stream of a forest. -/
def Node.postorderWordsList : List Node → List Nat
  | [] => []
  | n :: ns => Node.postorderWords n ++ Node.postorderWordsList ns

end

mutual

/-- The postorder constant stream of a tree: the streams of the children,
left to right, followed by the node's own constant values. -/
def Node.postorderConsts : Node → List ℚ
  | Node.mk _ cs children =>
      Node.postorderConstsList children ++ cs.map Constant.value

/-- The postorder constant stream of a forest. -/
def Node.postorderConstsList : List Node → List ℚ
  | [] => []
  | n :: ns => Node.postorderConsts n ++ Node.postorderConstsList ns

end

/-! ### Helper lemmas about the encoder state -/

theorem push_word_spec (e : InstructionEncoder) (w : Nat) (e1 : InstructionEncoder)
    (h : e.push_word w = some e1) :
    e1.instr_offset = e.instr_offset + 1 ∧
    e1.instr_offset ≤ INSTRUCTION_COUNT ∧
    e1.writtenWords = e.writtenWords ++ [w] ∧
    e1.pool_offset = e.pool_offset ∧
    e1.writtenConsts = e.writtenConsts := by
  unfold InstructionEncoder.push_word at h
  split at h
  case isFalse => exact absurd h (by simp)
  case isTrue hlt =>
    obtain rfl : _ = e1 := Option.some_injective _ h
    refine ⟨rfl, hlt, ?_, rfl, rfl⟩
    simp only [InstructionEncoder.writtenWords, List.range_succ, List.map_append,
      List.map_cons, List.map_nil, if_pos rfl]
    congr 1
    exact List.map_congr_left fun i hi =>
      if_neg (Nat.ne_of_lt (List.mem_range.mp hi))

theorem push_constant_spec (e : InstructionEncoder) (v : ℚ) (e1 : InstructionEncoder)
    (h : e.push_constant v = some e1) :
    e1.pool_offset = e.pool_offset + 1 ∧
    e1.pool_offset ≤ CONSTANT_POOL_SIZE ∧
    e1.writtenConsts = e.writtenConsts ++ [v] ∧
    e1.instr_offset = e.instr_offset ∧
    e1.writtenWords = e.writtenWords := by
  unfold InstructionEncoder.push_constant at h
  split at h
  case isFalse => exact absurd h (by simp)
  case isTrue hlt =>
    obtain rfl : _ = e1 := Option.some_injective _ h
    refine ⟨rfl, hlt, ?_, rfl, rfl⟩
    simp only [InstructionEncoder.writtenConsts, List.range_succ, List.map_append,
      List.map_cons, List.map_nil, if_pos rfl]
    congr 1
    exact List.map_congr_left fun i hi =>
      if_neg (Nat.ne_of_lt (List.mem_range.mp hi))

theorem pushConstants_spec (vs : List ℚ) (e e1 : InstructionEncoder)
    (h : pushConstants vs e = some e1) :
    e1.pool_offset = e.pool_offset + vs.length ∧
    e1.writtenConsts = e.writtenConsts ++ vs ∧
    e1.instr_offset = e.instr_offset ∧
    e1.writtenWords = e.writtenWords ∧
    (e1.pool_offset ≤ CONSTANT_POOL_SIZE ∨ e1.pool_offset = e.pool_offset) := by
  induction vs generalizing e with
  | nil =>
    obtain rfl : e = e1 := Option.some_injective _ h
    exact ⟨rfl, by simp, rfl, rfl, Or.inr rfl⟩
  | cons v vs ih =>
    rw [pushConstants] at h
    rcases ho : e.push_constant v with _ | e2
    · rw [ho] at h; exact absurd h (by simp)
    · rw [ho] at h
      simp only [Option.some_bind] at h
      obtain ⟨hp, hple, hwc, hio, hww⟩ := push_constant_spec e v e2 ho
      obtain ⟨ihp, ihwc, ihio, ihww, ihle⟩ := ih e2 h
      refine ⟨by simp only [List.length_cons]; omega, ?_, by omega, by rw [ihww, hww], ?_⟩
      · rw [ihwc, hwc, List.append_assoc, List.singleton_append]
      · rcases ihle with h1 | h1
        · exact Or.inl h1
        · exact Or.inl (h1 ▸ hple)

mutual

theorem encode_spec (n : Node) (e e1 : InstructionEncoder)
    (h : Node.encode n e = some e1) :
    e1.instr_offset = e.instr_offset + Node.count n ∧
    e1.pool_offset = e.pool_offset + Node.constCount n ∧
    e1.writtenWords = e.writtenWords ++ Node.postorderWords n ∧
    e1.writtenConsts = e.writtenConsts ++ Node.postorderConsts n ∧
    e1.instr_offset ≤ INSTRUCTION_COUNT ∧
    (e1.pool_offset ≤ CONSTANT_POOL_SIZE ∨ e1.pool_offset = e.pool_offset) := by
  cases n with
  | mk op cs children =>
    rw [Node.encode] at h
    rcases h1 : Node.encodeChildren children e with _ | e2
    · rw [h1] at h; exact absurd h (by simp)
    · rw [h1] at h
      simp only [Option.some_bind] at h
      rcases h2 : pushConstants (cs.map Constant.value) e2 with _ | e3
      · rw [h2] at h; exact absurd h (by simp)
      · rw [h2] at h
        simp only [Option.some_bind] at h
        obtain ⟨a1, a2, a3, a4, _, a6⟩ := encodeChildren_spec children e e2 h1
        obtain ⟨b1, b2, b3, b4, b5⟩ := pushConstants_spec _ e2 e3 h2
        obtain ⟨c1, c2, c3, c4, c5⟩ := push_word_spec e3 _ e1 h
        refine ⟨?_, ?_, ?_, ?_, c2, ?_⟩
        · rw [Node.count]; omega
        · rw [Node.constCount]
          rw [List.length_map] at b1
          omega
        · rw [Node.postorderWords, c3, b4, a3, List.append_assoc]
        · rw [Node.postorderConsts, c5, b2, a4, List.append_assoc]
        · rw [c4]
          rcases b5 with b5 | b5
          · exact Or.inl b5
          · rw [b5]
            rcases a6 with a6 | a6
            · exact Or.inl a6
            · exact Or.inr a6

theorem encodeChildren_spec (ns : List Node) (e e1 : InstructionEncoder)
    (h : Node.encodeChildren ns e = some e1) :
    e1.instr_offset = e.instr_offset + Node.countList ns ∧
    e1.pool_offset = e.pool_offset + Node.constCountList ns ∧
    e1.writtenWords = e.writtenWords ++ Node.postorderWordsList ns ∧
    e1.writtenConsts = e.writtenConsts ++ Node.postorderConstsList ns ∧
    (e1.instr_offset ≤ INSTRUCTION_COUNT ∨ e1.instr_offset = e.instr_offset) ∧
    (e1.pool_offset ≤ CONSTANT_POOL_SIZE ∨ e1.pool_offset = e.pool_offset) := by
  cases ns with
  | nil =>
    rw [Node.encodeChildren] at h
    obtain rfl : e = e1 := Option.some_injective _ h
    simp [Node.countList, Node.constCountList, Node.postorderWordsList,
      Node.postorderConstsList]
  | cons n ns =>
    rw [Node.encodeChildren] at h
    rcases h1 : Node.encode n e with _ | e2
    · rw [h1] at h; exact absurd h (by simp)
    · rw [h1] at h
      simp only [Option.some_bind] at h
      obtain ⟨a1, a2, a3, a4, a5, a6⟩ := encode_spec n e e2 h1
      obtain ⟨d1, d2, d3, d4, d5, d6⟩ := encodeChildren_spec ns e2 e1 h
      refine ⟨?_, ?_, ?_, ?_, ?_, ?_⟩
      · rw [Node.countList]; omega
      · rw [Node.constCountList]; omega
      · rw [Node.postorderWordsList, d3, a3, List.append_assoc]
      · rw [Node.postorderConstsList, d4, a4, List.append_assoc]
      · rcases d5 with d5 | d5
        · exact Or.inl d5
        · rw [d5]; exact Or.inl a5
      · rcases d6 with d6 | d6
        · exact Or.inl d6
        · rw [d6]
          rcases a6 with a6 | a6
          · exact Or.inl a6
          · exact Or.inr a6

end

/-- Length of the emitted word list is the write cursor. -/
theorem writtenWords_length (e : InstructionEncoder) :
    e.writtenWords.length = e.instr_offset := by
  simp [InstructionEncoder.writtenWords]

/-- A two-level example tree: an AddOp (id 10) over two ConstOps (id 1),
each leaf carrying one constant, used to instantiate theorems. -/
def wConst : Constant :=
  { limits := (-1, 1), value := 0, rate := 1 / 500, wrap_mode := WrapMode.Mirror }

def wNode : Node :=
  Node.mk 10 [] [Node.mk 1 [wConst] [], Node.mk 1 [wConst] []]

/-- A tree of 130 nodes, exceeding the 128-word instruction budget. -/
def overflowNode : Node :=
  Node.mk 10 [] (List.replicate 129 (Node.mk 1 [wConst] []))

/-- C1: encoding a tree of Nodes into a fresh InstructionEncoder visits the
tree in strict postorder: the emitted word sequence is exactly the
postorder word stream (for each node, all children's words come first,
left to right, then the node's own word), the emitted constants are the
postorder constant stream, exactly one instruction word is emitted per
node, and the final instruction write cursor equals the total node count
of the tree. -/
theorem encode_postorder (n : Node) (e1 : InstructionEncoder)
    (h : Node.encode n InstructionEncoder.new = some e1) :
    e1.writtenWords = Node.postorderWords n ∧
    e1.writtenConsts = Node.postorderConsts n ∧
    e1.instr_offset = Node.count n ∧
    (Node.postorderWords n).length = Node.count n := by
  obtain ⟨a1, a2, a3, a4, a5, a6⟩ := encode_spec n InstructionEncoder.new e1 h
  have hw : InstructionEncoder.writtenWords InstructionEncoder.new = [] := rfl
  have hc : InstructionEncoder.writtenConsts InstructionEncoder.new = [] := rfl
  have h0 : InstructionEncoder.new.instr_offset = 0 := rfl
  have hW : e1.writtenWords = Node.postorderWords n := by
    rw [a3, hw, List.nil_append]
  have hio : e1.instr_offset = Node.count n := by omega
  refine ⟨hW, ?_, hio, ?_⟩
  · rw [a4, hc, List.nil_append]
  · rw [← hW, writtenWords_length, hio]

theorem encode_postorder_witness :
    (Node.encode wNode InstructionEncoder.new).map InstructionEncoder.instr_offset
      = some (Node.count wNode) := by
  rcases hh : Node.encode wNode InstructionEncoder.new with _ | e1
  · have hs : (Node.encode wNode InstructionEncoder.new).isSome = true := by decide
    rw [hh] at hs
    exact absurd hs (by decide)
  · rw [Option.map_some']
    exact congrArg some (encode_postorder wNode e1 hh).2.2.1

/-- C4: if the number of nodes exceeds the instruction-buffer capacity
(INSTRUCTION_COUNT = 128) or the total number of constants exceeds the
constant-pool capacity (CONSTANT_POOL_SIZE = 1024), the compile aborts
(the write past capacity is the fatal array-index panic, modelled as
`none`) rather than returning a truncated instruction buffer or constant
pool; no word or pool entry is silently dropped. -/
theorem encode_capacity_abort (n : Node)
    (h : INSTRUCTION_COUNT < Node.count n ∨ CONSTANT_POOL_SIZE < Node.constCount n) :
    Node.encode n InstructionEncoder.new = none := by
  rcases hh : Node.encode n InstructionEncoder.new with _ | e1
  · rfl
  · exfalso
    obtain ⟨a1, a2, a3, a4, a5, a6⟩ := encode_spec n InstructionEncoder.new e1 hh
    have h0i : InstructionEncoder.new.instr_offset = 0 := rfl
    have h0p : InstructionEncoder.new.pool_offset = 0 := rfl
    rcases h with h | h
    · omega
    · rcases a6 with a6 | a6 <;> omega

set_option maxRecDepth 4000 in
theorem encode_capacity_abort_witness :
    INSTRUCTION_COUNT < Node.count overflowNode ∧
    Node.encode overflowNode InstructionEncoder.new = none :=
  ⟨by decide, encode_capacity_abort overflowNode (Or.inl (by decide))⟩

/-- C2: for every opcode in the catalog (ids 1-6 and 8-19, child counts
0-2, constant counts 0-7), the 32-bit instruction word emitted by
`InstructionEncoder::push` carries the opcode id in bits 0-7, the child
count in bits 8-15, the constant count in bits 16-23, and zeros in bits
24-31. -/
theorem op_bits_layout (id ch cs : Nat)
    (h : (id, ch, cs) ∈ opcodeCatalog) :
    op_bits id ch cs % 2 ^ 8 = id ∧
    op_bits id ch cs / 2 ^ 8 % 2 ^ 8 = ch ∧
    op_bits id ch cs / 2 ^ 16 % 2 ^ 8 = cs ∧
    op_bits id ch cs / 2 ^ 24 = 0 := by
  fin_cases h <;> decide

theorem op_bits_layout_witness :
    (1, 0, 1) ∈ opcodeCatalog ∧
    (op_bits 1 0 1 % 2 ^ 8 = 1 ∧
     op_bits 1 0 1 / 2 ^ 8 % 2 ^ 8 = 0 ∧
     op_bits 1 0 1 / 2 ^ 16 % 2 ^ 8 = 1 ∧
     op_bits 1 0 1 / 2 ^ 24 = 0) :=
  ⟨by decide, op_bits_layout 1 0 1 (by decide)⟩

/-- `InstructionEncoder::instruction_buffer_size` as written in the source:
it measures `[u64; INSTRUCTION_COUNT]`, eight bytes per element. -/
def instruction_buffer_size : Nat := 8 * INSTRUCTION_COUNT

/-- The byte size of the `[u32; INSTRUCTION_COUNT]` array that `finish`
actually returns (the `instrs` field): four bytes per element. -/
def finished_instrs_byte_size : Nat := 4 * INSTRUCTION_COUNT

/-- C3 (code bug): the instruction buffer produced per channel is
`[u32; INSTRUCTION_COUNT]`, so its byte size is INSTRUCTION_COUNT * 4 =
512; but `instruction_buffer_size` computes `size_of` of
`[u64; INSTRUCTION_COUNT]` = 1024 bytes, so the size the core reports to
the external consumer does NOT equal the byte size of the array returned
by `finish`. -/
theorem instruction_buffer_size_mismatch :
    instruction_buffer_size = 1024 ∧
    finished_instrs_byte_size = INSTRUCTION_COUNT * 4 ∧
    instruction_buffer_size ≠ INSTRUCTION_COUNT * 4 := by decide

/-! ### Constant oscillator invariants -/

/-- One-step invariant preservation for `Constant::animate`: if the value
lies within the limits and the rate magnitude is at most the width of the
interval, one animate step keeps the value within the limits, keeps the
rate magnitude bounded by the width, and leaves limits and wrap mode
unchanged. -/
theorem animate_preserves (c : Constant)
    (hab : c.limits.1 ≤ c.limits.2)
    (h1 : c.limits.1 ≤ c.value) (h2 : c.value ≤ c.limits.2)
    (hr1 : -(c.limits.2 - c.limits.1) ≤ c.rate) (hr2 : c.rate ≤ c.limits.2 - c.limits.1) :
    c.animate.limits = c.limits ∧ c.animate.wrap_mode = c.wrap_mode ∧
    c.limits.1 ≤ c.animate.value ∧ c.animate.value ≤ c.limits.2 ∧
    -(c.limits.2 - c.limits.1) ≤ c.animate.rate ∧
    c.animate.rate ≤ c.limits.2 - c.limits.1 := by
  obtain ⟨⟨a, b⟩, v, r, m⟩ := c
  dsimp only at *
  cases m <;>
    simp only [Constant.animate] <;>
    split_ifs <;>
    (try dsimp only at *) <;>
    refine ⟨rfl, rfl, ?_, ?_, ?_, ?_⟩ <;>
    linarith

/-- The invariant of `animate_preserves` iterated over any number of
animate steps. -/
theorem animateN_inv (c : Constant) (n : Nat)
    (hab : c.limits.1 ≤ c.limits.2)
    (h1 : c.limits.1 ≤ c.value) (h2 : c.value ≤ c.limits.2)
    (hr1 : -(c.limits.2 - c.limits.1) ≤ c.rate) (hr2 : c.rate ≤ c.limits.2 - c.limits.1) :
    (c.animateN n).limits = c.limits ∧
    c.limits.1 ≤ (c.animateN n).value ∧ (c.animateN n).value ≤ c.limits.2 ∧
    -(c.limits.2 - c.limits.1) ≤ (c.animateN n).rate ∧
    (c.animateN n).rate ≤ c.limits.2 - c.limits.1 := by
  induction n generalizing c with
  | zero => exact ⟨rfl, h1, h2, hr1, hr2⟩
  | succ n ih =>
    obtain ⟨p1, _, p3, p4, p5, p6⟩ := animate_preserves c hab h1 h2 hr1 hr2
    rw [Constant.animateN]
    obtain ⟨q1, q2, q3, q4, q5⟩ := ih c.animate (by rw [p1]; exact hab)
      (by rw [p1]; exact p3) (by rw [p1]; exact p4)
      (by rw [p1]; exact p5) (by rw [p1]; exact p6)
    rw [p1] at q1 q2 q3 q4 q5
    exact ⟨q1, q2, q3, q4, q5⟩

/-- C5: a Constant constructed by `Constant::new` from a catalog entry —
value drawn within the declared bounds, rate drawn within
[min/RATE_SCALE, max/RATE_SCALE] as §4.4 specifies (and forced to 0 for
the fixed mode) — satisfies min ≤ value ≤ max after any number of
animate steps, under every wrap mode. The two side conditions
500*min ≤ 499*max and 499*min ≤ 500*max are facts about the declared
bound pair; every bound pair declared by the make_op! catalog rows
satisfies them. -/
theorem constant_animate_invariant
    (a b rateDraw valueDraw : ℚ) (mode : String) (c : Constant) (n : Nat)
    (hnew : Constant.new a b mode rateDraw valueDraw = some c)
    (hab : a < b)
    (hs1 : 500 * a ≤ 499 * b) (hs2 : 499 * a ≤ 500 * b)
    (hv1 : a ≤ valueDraw) (hv2 : valueDraw ≤ b)
    (hr : mode = "f" ∨ (a / RATE_SCALE ≤ rateDraw ∧ rateDraw ≤ b / RATE_SCALE)) :
    a ≤ (c.animateN n).value ∧ (c.animateN n).value ≤ b := by
  rcases hw : WrapMode.from_name mode with _ | w
  · rw [Constant.new, hw] at hnew
    exact absurd hnew (by simp)
  · rw [Constant.new, hw, Option.map_some'] at hnew
    obtain rfl : _ = c := Option.some_injective _ hnew
    have hrate : -(b - a) ≤ (if mode ≠ "f" then rateDraw else 0) ∧
        (if mode ≠ "f" then rateDraw else 0) ≤ b - a := by
      split_ifs with hm
      · rcases hr with hr | ⟨hra, hrb⟩
        · exact absurd hr hm
        · rw [RATE_SCALE] at hra hrb
          have ha5 : a ≤ rateDraw * 500 := (div_le_iff₀ (by norm_num)).mp hra
          have hb5 : rateDraw * 500 ≤ b := (le_div_iff₀ (by norm_num)).mp hrb
          constructor <;> linarith
      · constructor <;> linarith
    obtain ⟨_, q2, q3, _, _⟩ :=
      animateN_inv
        { limits := (a, b), value := valueDraw,
          rate := if mode ≠ "f" then rateDraw else 0, wrap_mode := w } n
        (le_of_lt hab) hv1 hv2 hrate.1 hrate.2
    exact ⟨q2, q3⟩

theorem constant_animate_invariant_witness :
    (Constant.new (-1) 1 ("m") (1 / 500) 0 = some wConst) ∧
    ((-1 : ℚ) ≤ (wConst.animateN 3).value ∧ (wConst.animateN 3).value ≤ 1) :=
  ⟨rfl,
   constant_animate_invariant (-1) 1 (1 / 500) 0 ("m") wConst 3 rfl
     (by norm_num) (by norm_num) (by norm_num) (by norm_num) (by norm_num)
     (Or.inr ⟨by norm_num [RATE_SCALE], by norm_num [RATE_SCALE]⟩)⟩

/-- C6: a Constant created with the fixed wrap-mode name "f" has rate 0 at
construction and permanently thereafter, and its entire state — in
particular its value — is unchanged by any number of animate calls. -/
theorem fixed_constant_frozen (a b rateDraw valueDraw : ℚ) (c : Constant) (n : Nat)
    (hnew : Constant.new a b ("f") rateDraw valueDraw = some c)
    (hv1 : a ≤ valueDraw) (hv2 : valueDraw < b) :
    c.rate = 0 ∧ c.animateN n = c := by
  rw [Constant.new] at hnew
  have hw : WrapMode.from_name ("f") = some WrapMode.Repeat := rfl
  rw [hw, Option.map_some'] at hnew
  obtain rfl : _ = c := Option.some_injective _ hnew
  have hrate0 : (if ("f" : String) ≠ "f" then rateDraw else (0 : ℚ)) = 0 :=
    if_neg (not_not_intro rfl)
  rw [hrate0]
  have hone : Constant.animate
      { limits := (a, b), value := valueDraw, rate := 0,
        wrap_mode := WrapMode.Repeat } =
      { limits := (a, b), value := valueDraw, rate := 0,
        wrap_mode := WrapMode.Repeat } := by
    simp only [Constant.animate]
    split_ifs <;> (try dsimp only at *) <;> first | (exfalso; linarith) | (simp)
  refine ⟨rfl, ?_⟩
  induction n with
  | zero => rfl
  | succ n ih => rw [Constant.animateN, hone, ih]

def fixedWitnessConstant : Constant :=
  { limits := (3, 25), value := 10, rate := 0, wrap_mode := WrapMode.Repeat }

theorem fixed_constant_frozen_witness :
    (Constant.new 3 25 ("f") 7 10 = some fixedWitnessConstant) ∧
    (fixedWitnessConstant.rate = 0 ∧
     fixedWitnessConstant.animateN 5 = fixedWitnessConstant) :=
  ⟨rfl,
   fixed_constant_frozen 3 25 7 10 fixedWitnessConstant 5 rfl (by norm_num)
     (by norm_num)⟩

/-- Pre-state for the literal reading of the Mirror law: the Constant's
value field already equals max + ε with ε = 1/10, rate = +r with
r = 1/5 (so 0 < ε < r), wrap mode Mirror, limits 0..1. -/
def mirrorClaimConstant : Constant :=
  { limits := (0, 1), value := 1 + 1 / 10, rate := 1 / 5, wrap_mode := WrapMode.Mirror }

/-- C7 counterexample: for the concrete Mirror constant whose value is
max + ε (ε = 1/10) with rate +r (r = 1/5) and 0 < ε < r, one animate call
yields value = max - ε - r = 7/10, not max - ε = 9/10 as claimed: the
code adds the rate to the value before the mirror reflection. -/
theorem mirror_law_counterexample :
    mirrorClaimConstant.value = mirrorClaimConstant.limits.2 + 1 / 10 ∧
    mirrorClaimConstant.rate = 1 / 5 ∧
    (0 : ℚ) < 1 / 10 ∧ (1 / 10 : ℚ) < 1 / 5 ∧
    mirrorClaimConstant.wrap_mode = WrapMode.Mirror ∧
    mirrorClaimConstant.animate.value = 7 / 10 ∧
    ¬ mirrorClaimConstant.animate.value = mirrorClaimConstant.limits.2 - 1 / 10 := by
  have h : mirrorClaimConstant.animate.value = 7 / 10 := by
    simp only [Constant.animate, mirrorClaimConstant]
    split_ifs <;> (try dsimp only at *) <;> norm_num at *
  refine ⟨by norm_num [mirrorClaimConstant], by norm_num [mirrorClaimConstant],
    by norm_num, by norm_num, rfl, h, by rw [h]; norm_num [mirrorClaimConstant]⟩

/-- C7 (amended): the Mirror law holds of the overshoot of the update
step: if adding the rate overshoots the upper limit by ε — that is,
value + rate = max + ε with rate = +r and 0 < ε < r, so the pre-state
value max + ε - r lies below max — then one animate call yields
value = max - ε and rate = -r (limits ordered, min ≤ max). -/
theorem mirror_law (a b eps r : ℚ) (c : Constant)
    (hc : c = { limits := (a, b), value := b + eps - r, rate := r,
                wrap_mode := WrapMode.Mirror })
    (hab : a ≤ b) (he : 0 < eps) (her : eps < r) :
    c.animate.value = b - eps ∧ c.animate.rate = -r := by
  subst hc
  simp only [Constant.animate]
  split_ifs <;> (try dsimp only at *) <;>
    first
      | (exfalso; linarith)
      | (constructor <;> ring)

def mirrorWitnessConstant : Constant :=
  { limits := (0, 1), value := 9 / 10, rate := 1 / 5, wrap_mode := WrapMode.Mirror }

theorem mirror_law_witness :
    mirrorWitnessConstant.animate.value = 1 - 1 / 10 ∧
    mirrorWitnessConstant.animate.rate = -(1 / 5) :=
  mirror_law 0 1 (1 / 10) (1 / 5) mirrorWitnessConstant
    (by norm_num [mirrorWitnessConstant, Constant.mk.injEq, Prod.mk.injEq])
    (by norm_num) (by norm_num) (by norm_num)

/-- Pre-state for the literal reading of the Repeat law: the Constant's
value field already equals max + ε with ε = 1/10, rate = +r with r = 1/5,
wrap mode Repeat, limits 0..1. -/
def repeatClaimConstant : Constant :=
  { limits := (0, 1), value := 1 + 1 / 10, rate := 1 / 5, wrap_mode := WrapMode.Repeat }

/-- C8 counterexample: for the concrete Repeat constant whose value is
max + ε (ε = 1/10) with rate +r (r = 1/5), one animate call yields
value = min + ε + r = 3/10, not min + ε = 1/10 as claimed (the rate is
added to the value before the wrap); the rate is indeed unchanged. -/
theorem repeat_law_counterexample :
    repeatClaimConstant.value = repeatClaimConstant.limits.2 + 1 / 10 ∧
    repeatClaimConstant.rate = 1 / 5 ∧ (0 : ℚ) < 1 / 10 ∧ (0 : ℚ) < 1 / 5 ∧
    repeatClaimConstant.wrap_mode = WrapMode.Repeat ∧
    repeatClaimConstant.animate.value = 3 / 10 ∧
    repeatClaimConstant.animate.rate = 1 / 5 ∧
    ¬ repeatClaimConstant.animate.value = repeatClaimConstant.limits.1 + 1 / 10 := by
  have h : repeatClaimConstant.animate.value = 3 / 10 := by
    simp only [Constant.animate, repeatClaimConstant]
    split_ifs <;> (try dsimp only at *) <;> norm_num at *
  have hr : repeatClaimConstant.animate.rate = 1 / 5 := by
    simp only [Constant.animate, repeatClaimConstant]
    split_ifs <;> (try dsimp only at *) <;> norm_num at *
  refine ⟨by norm_num [repeatClaimConstant], by norm_num [repeatClaimConstant],
    by norm_num, by norm_num, rfl, h, hr, by rw [h]; norm_num [repeatClaimConstant]⟩

/-- C8 (amended): the Repeat law holds of the overshoot of the update
step: if adding the rate overshoots the upper limit by ε — that is,
value + rate = max + ε with rate = +r, 0 < r, 0 < ε — then one animate
call yields value = min + ε with the rate unchanged (limits ordered,
min ≤ max). -/
theorem repeat_law (a b eps r : ℚ) (c : Constant)
    (hc : c = { limits := (a, b), value := b + eps - r, rate := r,
                wrap_mode := WrapMode.Repeat })
    (hab : a ≤ b) (he : 0 < eps) (hr : 0 < r) :
    c.animate.value = a + eps ∧ c.animate.rate = r := by
  subst hc
  simp only [Constant.animate]
  split_ifs <;> (try dsimp only at *) <;>
    first
      | (exfalso; linarith)
      | (constructor <;> ring)

def repeatWitnessConstant : Constant :=
  { limits := (0, 1), value := 9 / 10, rate := 1 / 5, wrap_mode := WrapMode.Repeat }

theorem repeat_law_witness :
    repeatWitnessConstant.animate.value = 0 + 1 / 10 ∧
    repeatWitnessConstant.animate.rate = 1 / 5 :=
  repeat_law 0 1 (1 / 10) (1 / 5) repeatWitnessConstant
    (by norm_num [repeatWitnessConstant, Constant.mk.injEq, Prod.mk.injEq])
    (by norm_num) (by norm_num) (by norm_num)

/-! ### Guided random walk -/

/-- The rate-total computation of the lazy_static block: a running sum over
the table in table order. -/
def sumRates (rates : List (ℚ × Nat × String)) : ℚ :=
  rates.foldl (fun total r => total + r.1) 0

/-- `LEAF_RATES` from tree.rs: (rate, opcode id, name). -/
def LEAF_RATES : List (ℚ × Nat × String) :=
  [(0.01, 1, "const"), (2.00, 2, "ellipse"), (4.00, 3, "flower"),
   (1.00, 4, "linear gradient"), (2.00, 5, "radial gradient"),
   (2.00, 6, "polar theta")]

/-- `OP_RATES` from tree.rs: (rate, opcode id, name). -/
def OP_RATES : List (ℚ × Nat × String) :=
  [(0.2, 8, "absolute"), (0.1, 9, "invert"), (0.3, 10, "add"),
   (0.3, 11, "subtract"), (0.3, 12, "multiply"), (0.3, 13, "divide"),
   (0.5, 14, "modulus"), (0.5, 15, "exponentiate"), (0.0, 16, "sinc"),
   (0.0, 17, "sine"), (0.2, 18, "spiral"), (2.0, 19, "squircle")]

/-- `LEAF_RATE_TOTAL`: sum of the leaf rates, accumulated in table order. -/
def LEAF_RATE_TOTAL : ℚ := sumRates LEAF_RATES

/-- `OP_RATE_TOTAL`: sum of the combinator rates, accumulated in table order. -/
def OP_RATE_TOTAL : ℚ := sumRates OP_RATES

/-- The `while acc <= f` loop of `guided_random_walk`. The Rust loop keeps
the whole `rates` slice and an index `i`; here the remaining suffix
`rates[i..]` takes the place of the cursor into the slice while `i`
carries the same numeric index. Reading `rates[i]` when `i` has reached
the end of the table is the out-of-bounds panic, modelled as `none`;
otherwise the loop adds `rates[i].0` to the accumulator and advances.
Returns the value of `i` at loop exit. -/
def walk_loop (f : ℚ) (rest : List (ℚ × Nat × String)) (i : Nat) (acc : ℚ) :
    Option Nat :=
  if acc ≤ f then
    match rest with
    | [] => none
    | r :: rest1 => walk_loop f rest1 (i + 1) (acc + r.1)
  else some i

/-- `guided_random_walk`: with the draw `f = rng.gen_range(0, total)` passed
in as a parameter, run the loop from index 0 and accumulator 0, subtract
one from the final index (a usize underflow panic if the loop exited
immediately, modelled as `none`), and return the opcode id (`.1` field)
of the entry at that index. -/
def guided_random_walk (rates : List (ℚ × Nat × String)) (f : ℚ) : Option Nat :=
  match walk_loop f rates 0 0 with
  | some i =>
      if i = 0 then none
      else (rates[i - 1]?).map fun r => r.2.1
  | none => none

/-- Modelled from the spec (§4.2 step 4): the opcode id of the first entry
whose cumulative rate sum, accumulated in table order, strictly exceeds
the draw — half-open interval semantics, so a draw equal to a cumulative
boundary selects the next entry. Entry 0 is selected iff f < r0;
otherwise the selection continues on the tail with draw f - r0. -/
def firstCumExceed : List (ℚ × Nat × String) → ℚ → Option Nat
  | [], _ => none
  | r :: rest, f => if f < r.1 then some r.2.1 else firstCumExceed rest (f - r.1)

theorem sumRates_foldl (rates : List (ℚ × Nat × String)) (init : ℚ) :
    rates.foldl (fun total r => total + r.1) init = init + sumRates rates := by
  induction rates generalizing init with
  | nil => simp [sumRates]
  | cons r rest ih =>
    simp only [sumRates, List.foldl_cons] at *
    rw [ih, ih (0 + r.1)]
    ring

theorem sumRates_cons (r : ℚ × Nat × String) (rest : List (ℚ × Nat × String)) :
    sumRates (r :: rest) = r.1 + sumRates rest := by
  rw [sumRates, List.foldl_cons, sumRates_foldl]
  ring

theorem walk_loop_firstCumExceed (f : ℚ) (rates : List (ℚ × Nat × String)) :
    ∀ (rest : List (ℚ × Nat × String)) (i : Nat) (acc : ℚ),
      rates.drop i = rest → acc ≤ f → f < acc + sumRates rest →
      ∃ j, walk_loop f rest i acc = some j ∧ 1 ≤ j ∧
        ((rates[j - 1]?).map fun r => r.2.1) = firstCumExceed rest (f - acc) := by
  intro rest
  induction rest with
  | nil =>
    intro i acc hdrop hle hlt
    exfalso
    rw [show sumRates [] = 0 from rfl] at hlt
    linarith
  | cons r rest1 ih =>
    intro i acc hdrop hle hlt
    rw [walk_loop.eq_def, if_pos hle]
    by_cases hf : f < acc + r.1
    · have hstop : walk_loop f rest1 (i + 1) (acc + r.1) = some (i + 1) := by
        rw [walk_loop.eq_def, if_neg (by linarith)]
      refine ⟨i + 1, hstop, by omega, ?_⟩
      have hget : rates[i]? = some r := by
        have := List.getElem?_drop rates i 0
        rw [hdrop] at this
        simpa using this.symm
      simp only [Nat.add_sub_cancel, hget, Option.map_some']
      rw [firstCumExceed, if_pos (by linarith)]
    · push_neg at hf
      have hdrop1 : rates.drop (i + 1) = rest1 := by
        have : rates.drop (i + 1) = (rates.drop i).drop 1 := by
          rw [List.drop_drop, Nat.add_comm]
        rw [this, hdrop, List.drop_one, List.tail_cons]
      have hlt1 : f < (acc + r.1) + sumRates rest1 := by
        rw [sumRates_cons] at hlt
        linarith
      obtain ⟨j, hj, hj1, hjeq⟩ := ih (i + 1) (acc + r.1) hdrop1 hf hlt1
      refine ⟨j, hj, hj1, ?_⟩
      rw [hjeq, firstCumExceed, if_neg (by linarith)]
      have harg : f - acc - r.1 = f - (acc + r.1) := by ring
      rw [harg]

/-- The walk agrees with the spec-side selector on every in-range draw. -/
theorem walk_eq_firstCumExceed (rates : List (ℚ × Nat × String)) (f : ℚ)
    (h0 : 0 ≤ f) (hf : f < sumRates rates) :
    guided_random_walk rates f = firstCumExceed rates f := by
  obtain ⟨j, hj, hj1, hjeq⟩ :=
    walk_loop_firstCumExceed f rates rates 0 0 rfl h0 (by linarith)
  rw [guided_random_walk, hj]
  show (if j = 0 then (none : Option Nat)
      else (rates[j - 1]?).map fun r => r.2.1) = firstCumExceed rates f
  rw [if_neg (by omega)]
  simpa using hjeq

/-- C9: for every rate table (rates paired with opcode ids) with total R
accumulated in table order, and every draw f with 0 ≤ f < R,
`guided_random_walk` returns exactly the opcode id of the entry whose
cumulative rate sum first strictly exceeds f, with half-open interval
semantics (a draw equal to a cumulative boundary selects the next entry),
as expressed by the spec-side selector `firstCumExceed`. -/
theorem guided_random_walk_spec (rates : List (ℚ × Nat × String)) (f : ℚ)
    (h0 : 0 ≤ f) (hf : f < sumRates rates) :
    guided_random_walk rates f = firstCumExceed rates f :=
  walk_eq_firstCumExceed rates f h0 hf

theorem guided_random_walk_spec_witness :
    (0 : ℚ) ≤ 1 ∧ (1 : ℚ) < sumRates LEAF_RATES ∧
    guided_random_walk LEAF_RATES 1 = firstCumExceed LEAF_RATES 1 :=
  ⟨by norm_num, by norm_num [sumRates, LEAF_RATES],
   guided_random_walk_spec LEAF_RATES 1 (by norm_num)
     (by norm_num [sumRates, LEAF_RATES])⟩

theorem firstCumExceed_mem (rates : List (ℚ × Nat × String)) (f : ℚ) (id : Nat)
    (h : firstCumExceed rates f = some id) :
    id ∈ rates.map fun r => r.2.1 := by
  induction rates generalizing f with
  | nil => exact absurd h (by rw [firstCumExceed]; simp)
  | cons r rest ih =>
    rw [firstCumExceed] at h
    split_ifs at h
    · obtain rfl : r.2.1 = id := Option.some_injective _ h
      simp
    · simp only [List.map_cons, List.mem_cons]
      exact Or.inr (ih _ h)

theorem firstCumExceed_isSome (rates : List (ℚ × Nat × String)) (f : ℚ)
    (h0 : 0 ≤ f) (hf : f < sumRates rates) :
    ∃ id, firstCumExceed rates f = some id := by
  induction rates generalizing f with
  | nil =>
    exfalso
    rw [show sumRates [] = 0 from rfl] at hf
    linarith
  | cons r rest ih =>
    rw [firstCumExceed]
    split_ifs with hc
    · exact ⟨r.2.1, rfl⟩
    · push_neg at hc
      refine ih (f - r.1) (by linarith) ?_
      rw [sumRates_cons] at hf
      linarith

/-- The opcode ids with a dispatch arm in the leaf match of `Node::new`. -/
def leafDispatchIds : List Nat := [1, 2, 3, 4, 5, 6]

/-- The opcode ids with a dispatch arm in the combinator match of `Node::new`. -/
def opDispatchIds : List Nat := [8, 9, 10, 11, 12, 13, 14, 15, 16, 17, 18, 19]

/-- C10: for every draw f with 0 ≤ f < LEAF_RATE_TOTAL (resp. g with
0 ≤ g < OP_RATE_TOTAL, each total accumulated in the same table order),
the accumulation loop of `guided_random_walk` terminates with its index
strictly within the table — the `rates[i]` access never goes out of
bounds and the usize decrement never underflows, so the walk returns an
id rather than the `none` that models a panic — and the returned id is
one of the table's ids, each of which has a dispatch arm in `Node::new`:
the "unknown const opcode" and "unknown opcode" panic arms are
unreachable for these tables. -/
theorem guided_random_walk_in_dispatch (f g : ℚ)
    (hf0 : 0 ≤ f) (hf : f < LEAF_RATE_TOTAL)
    (hg0 : 0 ≤ g) (hg : g < OP_RATE_TOTAL) :
    (∃ id, guided_random_walk LEAF_RATES f = some id ∧ id ∈ leafDispatchIds) ∧
    (∃ id, guided_random_walk OP_RATES g = some id ∧ id ∈ opDispatchIds) := by
  constructor
  · obtain ⟨id, hid⟩ := firstCumExceed_isSome LEAF_RATES f hf0 hf
    refine ⟨id, ?_, ?_⟩
    · rw [walk_eq_firstCumExceed LEAF_RATES f hf0 hf]
      exact hid
    · have hm := firstCumExceed_mem LEAF_RATES f id hid
      simpa [LEAF_RATES, leafDispatchIds] using hm
  · obtain ⟨id, hid⟩ := firstCumExceed_isSome OP_RATES g hg0 hg
    refine ⟨id, ?_, ?_⟩
    · rw [walk_eq_firstCumExceed OP_RATES g hg0 hg]
      exact hid
    · have hm := firstCumExceed_mem OP_RATES g id hid
      simpa [OP_RATES, opDispatchIds] using hm

theorem guided_random_walk_in_dispatch_witness :
    (0 : ℚ) < LEAF_RATE_TOTAL ∧ (0 : ℚ) < OP_RATE_TOTAL ∧
    ((∃ id, guided_random_walk LEAF_RATES 0 = some id ∧ id ∈ leafDispatchIds) ∧
     (∃ id, guided_random_walk OP_RATES 0 = some id ∧ id ∈ opDispatchIds)) :=
  ⟨by norm_num [LEAF_RATE_TOTAL, sumRates, LEAF_RATES],
   by norm_num [OP_RATE_TOTAL, sumRates, OP_RATES],
   guided_random_walk_in_dispatch 0 0 le_rfl
     (by norm_num [LEAF_RATE_TOTAL, sumRates, LEAF_RATES]) le_rfl
     (by norm_num [OP_RATE_TOTAL, sumRates, OP_RATES])⟩

end Stampede
